import Mathlib

/-!
Verification of the 24-points game core (expression parsing, evaluation and
solution counting) against its specification.

The development shallowly embeds the TypeScript source.  JavaScript numbers are
modelled as rationals; the not-a-number sentinel produced by division by zero is
modelled by the value none of Option, and every arithmetic operation propagates
it exactly as NaN propagates in JavaScript.  (Over the rationals no non-finite
intermediate can arise, so the isFinite guards of the source collapse into the
same none sentinel.)  Stateful idioms in the source (the shunting-yard stacks,
the index-based recursive-descent parser, the in-place array sort) are embedded
by explicit state passing; recursion that is not structural in the source is
given an explicit fuel argument that provably exceeds the recursion depth used.
-/

/-- Operator symbols of the operator table OPERATORS. -/
inductive Oper where
  | add
  | sub
  | mul
  | div
deriving DecidableEq, Repr

/-- Precedence column of the OPERATORS table: + and - have precedence 1,
multiplication and division have precedence 2. -/
def precO : Oper → Nat
  | .add => 1
  | .sub => 1
  | .mul => 2
  | .div => 2

/-- Symbol column of the OPERATORS table. -/
def opSymbol : Oper → String
  | .add => "+"
  | .sub => "-"
  | .mul => "×"
  | .div => "÷"

/-- Calculate column of the OPERATORS table.  Division returns the NaN
sentinel (none) when the divisor is zero, mirroring b !== 0 ? a / b : NaN. -/
def opCalculate : Oper → ℚ → ℚ → Option ℚ
  | .add, a, b => some (a + b)
  | .sub, a, b => some (a - b)
  | .mul, a, b => some (a * b)
  | .div, a, b => if b ≠ 0 then some (a / b) else none

/-- getOperators returns the operator symbols in the insertion order of the
OPERATORS object: +, -, ×, ÷. -/
def getOperators : List Oper := [.add, .sub, .mul, .div]

/-- Flattened token: a GameCard after flattening, i.e. a number card, an
operator card, or one of the two parenthesis marker cards produced by
flattenCards. -/
inductive Tok where
  | num (q : ℚ)
  | op (o : Oper)
  | lparen
  | rparen
deriving DecidableEq, Repr

/-- AST node (interface TreeNode): a number leaf or a binary operation.  The
source type allows absent fields; the embedding covers the well-formed values
the parser constructs, and evaluateAST treats an absent tree (null) separately
via Option. -/
inductive TreeNode where
  | num (q : ℚ)
  | oper (o : Oper) (left : TreeNode) (right : TreeNode)
deriving DecidableEq, Repr

mutual
/-- Card of the card-drag UI (interface GameCard): a number, an operator, or a
parenthesis-pair card owning its nested content. -/
inductive Card where
  | num (q : ℚ)
  | op (o : Oper)
  | pair (content : CardList)

/-- Ordered list of cards.  A separate mutual inductive (rather than List Card)
keeps the recursion over nested parenthesis-pair cards structural. -/
inductive CardList where
  | nil
  | cons (c : Card) (cs : CardList)
end

/-- Emptiness test corresponding to cards.length === 0. -/
def CardList.isEmpty : CardList → Bool
  | .nil => true
  | .cons _ _ => false

mutual
/-- Flattening of one card: a parenthesis-pair card becomes an explicit open
marker, its flattened content, and a close marker (function flattenCards,
single-card step). -/
def flattenOne : Card → List Tok
  | .num q => [.num q]
  | .op o => [.op o]
  | .pair content => (.lparen :: flattenCards content) ++ [.rparen]

/-- flattenCards: recursively expands every parenthesis-pair card into
open marker, content, close marker. -/
def flattenCards : CardList → List Tok
  | .nil => []
  | .cons c cs => flattenOne c ++ flattenCards cs
end

/-- Inner while loop of the shunting-yard conversion for an incoming operator:
pop (and emit) stack-top operators whose precedence is at least the incoming
precedence; stop at anything that is not an operator.  Returns the emitted
tokens and the remaining stack. -/
def popGE (o : Oper) : List Tok → List Tok × List Tok
  | [] => ([], [])
  | .op o2 :: st =>
    if precO o ≤ precO o2 then
      let p := popGE o st
      (.op o2 :: p.1, p.2)
    else ([], .op o2 :: st)
  | st => ([], st)

/-- Inner while loop for a close parenthesis: pop (and emit) until an open
parenthesis is found, then discard it (or empty the stack if none is found). -/
def popToLParen : List Tok → List Tok × List Tok
  | [] => ([], [])
  | .lparen :: st => ([], st)
  | t :: st =>
    let p := popToLParen st
    (t :: p.1, p.2)

/-- One step of the shunting-yard loop of tokenizeExpression; the state is the
output list together with the operator stack (head = top). -/
def shuntStep : List Tok × List Tok → Tok → List Tok × List Tok
  | (out, st), .num q => (out ++ [.num q], st)
  | (out, st), .op o =>
    let p := popGE o st
    (out ++ p.1, .op o :: p.2)
  | (out, st), .lparen => (out, .lparen :: st)
  | (out, st), .rparen =>
    let p := popToLParen st
    (out ++ p.1, p.2)

/-- tokenizeExpression: shunting-yard conversion of the flat card sequence to
postfix; at the end the remaining stack is flushed to the output. -/
def tokenizeExpression (cards : List Tok) : List Tok :=
  let acc := cards.foldl shuntStep ([], [])
  acc.1 ++ acc.2

/-- Stack reduction loop of buildAST: numbers push leaves, an operator pops
right then left and pushes an operation node; parenthesis tokens (which the
source leaves unhandled in its if chain) are skipped; missing operands or a
final stack size other than one yield null. -/
def buildGo : List Tok → List TreeNode → Option TreeNode
  | [], [t] => some t
  | [], _ => none
  | .num q :: rest, st => buildGo rest (.num q :: st)
  | .op o :: rest, st =>
    match st with
    | r :: l :: st2 => buildGo rest (.oper o l r :: st2)
    | _ => none
  | .lparen :: rest, st => buildGo rest st
  | .rparen :: rest, st => buildGo rest st

/-- buildAST: reduce a postfix token list to a single tree, or null. -/
def buildAST (tokens : List Tok) : Option TreeNode :=
  buildGo tokens []

/-- Balance scan of parseExpression (and of the validator): running count of
opens minus closes; none signals that the count went negative. -/
def balGo : ℤ → List Tok → Option ℤ
  | b, [] => some b
  | b, .lparen :: r => balGo (b + 1) r
  | b, .rparen :: r => if b - 1 < 0 then none else balGo (b - 1) r
  | b, .num _ :: r => balGo b r
  | b, .op _ :: r => balGo b r

/-- Balance check: the running count never goes negative and ends at zero. -/
def balancedOk (l : List Tok) : Bool :=
  match balGo 0 l with
  | some b => b == 0
  | none => false

/-- parseExpression: verify parenthesis balance, convert to postfix, build the
AST; null on failure. -/
def parseExpression (cards : List Tok) : Option TreeNode :=
  if balancedOk cards then buildAST (tokenizeExpression cards) else none

/-- Lifting of an operator to NaN-propagating operands, as in JavaScript every
arithmetic operation on NaN yields NaN. -/
def opCalcO (o : Oper) : Option ℚ → Option ℚ → Option ℚ
  | some a, some b => opCalculate o a b
  | _, _ => none

/-- Recursive core of evaluateAST on a present node. -/
def evalT : TreeNode → Option ℚ
  | .num q => some q
  | .oper o l r => opCalcO o (evalT l) (evalT r)

/-- evaluateAST: a null node yields the NaN sentinel, otherwise the recursive
evaluation of the tree. -/
def evaluateAST : Option TreeNode → Option ℚ
  | none => none
  | some t => evalT t

/-- Left-parenthesization test of generateExpressionString: parentheses are
added when the left child is an operation of strictly lower precedence. -/
def needsParensL (l : TreeNode) (o : Oper) : Bool :=
  match l with
  | .oper o2 _ _ => precO o2 < precO o
  | _ => false

/-- Right-parenthesization test of generateExpressionString: strictly lower
precedence, or equal precedence under a subtraction parent. -/
def needsParensR (r : TreeNode) (o : Oper) : Bool :=
  match r with
  | .oper o2 _ _ => precO o2 < precO o || (precO o2 == precO o && o == .sub)
  | _ => false

/-- generateExpressionString: serialize an AST back to an infix string with the
minimal parenthesization rules above. -/
def generateExpressionString : TreeNode → String
  | .num q => toString q
  | .oper o l r =>
    let leftExpr := generateExpressionString l
    let rightExpr := generateExpressionString r
    let leftStr := if needsParensL l o then "(" ++ leftExpr ++ ")" else leftExpr
    let rightStr := if needsParensR r o then "(" ++ rightExpr ++ ")" else rightExpr
    leftStr ++ " " ++ opSymbol o ++ " " ++ rightStr

/-- Token sequence of the string rendered by generateExpressionString: same
recursion and the same parenthesization decisions, producing the token reading
of the rendered string (used to re-parse a rendered AST). -/
def generateExpressionToks : TreeNode → List Tok
  | .num q => [.num q]
  | .oper o l r =>
    let leftToks := generateExpressionToks l
    let rightToks := generateExpressionToks r
    let leftPart := if needsParensL l o then .lparen :: leftToks ++ [.rparen] else leftToks
    let rightPart := if needsParensR r o then .lparen :: rightToks ++ [.rparen] else rightToks
    leftPart ++ .op o :: rightPart

/-- First-token rule of isValidCardSequence: a number or an open marker. -/
def firstTokOk : List Tok → Bool
  | .num _ :: _ => true
  | .lparen :: _ => true
  | _ => false

/-- Last-token rule of isValidCardSequence: a number or a close marker. -/
def lastTokOk (l : List Tok) : Bool :=
  match l.getLast? with
  | some (.num _) => true
  | some .rparen => true
  | _ => false

/-- Alternation scan of isValidCardSequence: an open marker resets the
expectation to operand, a close marker sets it to operator, any other token
must match the expectation and flips it; none signals a mismatch.  The Bool
state is the expectingNumber flag. -/
def scanGo : Bool → List Tok → Option Bool
  | e, [] => some e
  | _, .lparen :: r => scanGo true r
  | _, .rparen :: r => scanGo false r
  | e, .num _ :: r => if e then scanGo false r else none
  | e, .op _ :: r => if e then none else scanGo true r

/-- Checks of isValidCardSequence on the flattened sequence: nonempty, first
and last token rules, alternation scan, parenthesis balance. -/
def validFlat (flat : List Tok) : Bool :=
  !flat.isEmpty && firstTokOk flat && lastTokOk flat &&
    (scanGo true flat).isSome && balancedOk flat

/-- isValidCardSequence: reject the empty card list, flatten, and run the flat
checks. -/
def isValidCardSequence (cards : CardList) : Bool :=
  !cards.isEmpty && validFlat (flattenCards cards)

/-- Display form of a flat token, as in the expression literal of
calculateExpression (value.toString() for numbers, the operator symbol, or the
parenthesis character). -/
def tokDisplay : Tok → String
  | .num q => toString q
  | .op o => opSymbol o
  | .lparen => "("
  | .rparen => ")"

/-- Rounding to two decimal places: Math.round(result * 100) / 100.
Math.round rounds half toward positive infinity, as round does. -/
def round2 (q : ℚ) : ℚ :=
  ((round (q * 100) : ℤ) : ℚ) / 100

/-- Correctness flag Math.abs(result - 24) < 0.001; any comparison with NaN is
false in JavaScript, so the none sentinel yields false. -/
def resultIsCorrect : Option ℚ → Bool
  | some r => |r - 24| < 1/1000
  | none => false

/-- Result record of the calculation engine (interface GameResult); the numeric
result uses the Option NaN model and steps is absent on the failure paths. -/
structure GameResult where
  result : Option ℚ
  expression : String
  isCorrect : Bool
  steps : Option (List String)
deriving Repr

/-- calculateExpression: empty input yields the zero/incorrect result; an
invalid card sequence or a failed parse yields the NaN/incorrect result with an
empty expression; otherwise the AST value is rounded to two decimals, the flat
tokens are joined with spaces for display, and the single narration step is
produced from the canonical renderer. -/
def calculateExpression (cards : CardList) : GameResult :=
  if cards.isEmpty then ⟨some 0, "", false, none⟩
  else if !isValidCardSequence cards then ⟨none, "", false, none⟩
  else
    let flatCards := flattenCards cards
    match parseExpression flatCards with
    | none => ⟨none, "", false, none⟩
    | some ast =>
      let result := evalT ast
      ⟨result.map round2,
       String.intercalate " " (flatCards.map tokDisplay),
       resultIsCorrect result,
       some ["计算表达式: " ++ generateExpressionString ast]⟩

/-- Recursion of getPermutations, made structural with a fuel argument; the
source recurses on the list with one element removed, so a fuel equal to the
list length suffices and the fuel-exhausted base case is unreachable. -/
def getPermutationsGo : Nat → List ℚ → List (List ℚ)
  | 0, l => [l]
  | fuel + 1, l =>
    if l.length ≤ 1 then [l]
    else
      (List.range l.length).flatMap (fun i =>
        (getPermutationsGo fuel (l.eraseIdx i)).map (fun p => l.getD i 0 :: p))

/-- getPermutations: all permutations of the list, by choosing each index as
the head and permuting the rest. -/
def getPermutations (numbers : List ℚ) : List (List ℚ) :=
  getPermutationsGo numbers.length numbers

/-- generateOperatorCombinations: all operator sequences of the given length in
the depth-first order of the source. -/
def generateOperatorCombinations : Nat → List (List Oper)
  | 0 => [[]]
  | n + 1 =>
    getOperators.flatMap (fun o => (generateOperatorCombinations n).map (o :: ·))

/-- Loop of calculateFromArray: fold the operators into the numbers strictly
left to right; a NaN result (which over ℚ is exactly the division-by-zero
sentinel, the isFinite guard being vacuous) aborts with NaN. -/
def calcGo : ℚ → List Oper → List ℚ → Option ℚ
  | result, [], _ => some result
  | result, o :: ops, n :: ns =>
    match opCalculate o result n with
    | none => none
    | some r => calcGo r ops ns
  | _, _ :: _, [] => none

/-- calculateFromArray: NaN unless there is exactly one more number than
operators, else the strict left-to-right fold. -/
def calculateFromArray (numbers : List ℚ) (operators : List Oper) : Option ℚ :=
  if numbers.length ≠ operators.length + 1 then none
  else
    match numbers with
    | [] => none
    | n :: ns => calcGo n operators ns

/-- Rendered solution string of countSolutions: the template literal
n0 op0 n1 op1 n2 op2 n3 with single spaces. -/
def renderSolution (p : List ℚ) (ops : List Oper) : String :=
  toString (p.getD 0 0) ++ " " ++ opSymbol (ops.getD 0 .add) ++ " " ++
  toString (p.getD 1 0) ++ " " ++ opSymbol (ops.getD 1 .add) ++ " " ++
  toString (p.getD 2 0) ++ " " ++ opSymbol (ops.getD 2 .add) ++ " " ++
  toString (p.getD 3 0)

/-- Loop body of countSolutions: the rendered strings of every solving
permutation/operator combination, in iteration order and with repetitions. -/
def solutionStrings (numbers : List ℚ) : List String :=
  (getPermutations numbers).flatMap (fun numPerm =>
    (generateOperatorCombinations 3).filterMap (fun opComb =>
      match calculateFromArray numPerm opComb with
      | some r => if |r - 24| < 1/1000 then some (renderSolution numPerm opComb) else none
      | none => none))

/-- countSolutions: size of the Set of rendered solution strings. -/
def countSolutions (numbers : List ℚ) : Nat :=
  (solutionStrings numbers).toFinset.card

/-- hasSolution: countSolutions(numbers) > 0. -/
def hasSolution (numbers : List ℚ) : Bool :=
  decide (0 < countSolutions numbers)

/-- calculateDifficulty: base 1, plus 0.5 per number above 10, plus
0.3 * (4 - distinct) when fewer than 4 distinct values, then the solution-count
adjustment (0 solutions forces 5, exactly 1 adds 1, more than 5 subtracts 0.5),
finally clamped to the interval from 1 to 5.  The Set of numbers is modelled by
dedup. -/
def calculateDifficulty (numbers : List ℚ) : ℚ :=
  let d1 : ℚ := 1 + ((numbers.filter (fun n => 10 < n)).length : ℚ) * (1/2)
  let uniqueNumbers := numbers.dedup.length
  let d2 : ℚ := if uniqueNumbers < 4 then d1 + ((4 : ℚ) - (uniqueNumbers : ℚ)) * (3/10) else d1
  let solutions := countSolutions numbers
  let d3 : ℚ :=
    if solutions = 0 then 5
    else if solutions = 1 then d2 + 1
    else if 5 < solutions then d2 - 1/2
    else d2
  max 1 (min 5 d3)

/-- Ascending numeric sort [...numbers].sort((a, b) => a - b), modelled by a
stable merge sort under the numeric order. -/
def jsSortNums (l : List ℚ) : List ℚ :=
  l.mergeSort (fun a b => decide (a ≤ b))

/-- generateQuestionHash: the numbers sorted ascending and joined with a
comma. -/
def generateQuestionHash (numbers : List ℚ) : String :=
  String.intercalate "," ((jsSortNums numbers).map toString)

/-! Catalogue-lookup functions of the key-value solutions module.  The
module-level catalogue (questionCache and the hash map filled by buildCache) is
passed explicitly as an immutable parameter; getQuestionByHash is the map
lookup.  The source functions call numbers.sort((a, b) => a - b), the in-place
Array.prototype.sort, so each function returns, besides its result, the final
contents of the caller's numbers array. -/

/-- Catalogue record (interface Question of the solutions module). -/
structure KvQuestion where
  numbers : List ℚ
  hash : String
  difficulty : ℚ
  solutions : List String

/-- getQuestionByHash: lookup in the hash-to-question map. -/
def getQuestionByHash (catalogue : List KvQuestion) (hash : String) : Option KvQuestion :=
  catalogue.find? (fun q => q.hash == hash)

/-- hasSolution of the solutions module: sorts the argument in place, joins it
into the hash and tests that the catalogue lists at least one solution.  The
second component is the argument array as the caller observes it afterwards. -/
def kvHasSolution (catalogue : List KvQuestion) (numbers : List ℚ) : Bool × List ℚ :=
  let sorted := jsSortNums numbers
  let hash := String.intercalate "," (sorted.map toString)
  (match getQuestionByHash catalogue hash with
   | some question => decide (0 < question.solutions.length)
   | none => false,
   sorted)

/-- getSolutionCount of the solutions module, with the same in-place sort. -/
def kvGetSolutionCount (catalogue : List KvQuestion) (numbers : List ℚ) : Nat × List ℚ :=
  let sorted := jsSortNums numbers
  let hash := String.intercalate "," (sorted.map toString)
  (match getQuestionByHash catalogue hash with
   | some question => question.solutions.length
   | none => 0,
   sorted)

/-- generateHint of the solutions module, with the same in-place sort. -/
def kvGenerateHint (catalogue : List KvQuestion) (numbers : List ℚ) : String × List ℚ :=
  let sorted := jsSortNums numbers
  let hash := String.intercalate "," (sorted.map toString)
  (match getQuestionByHash catalogue hash with
   | none => "仔细观察这些数字，试着找出它们之间的关系。"
   | some question =>
     if question.solutions.length = 0 then "仔细观察这些数字，试着找出它们之间的关系。"
     else
       let solution := question.solutions.headD ""
       if solution.contains '*' && solution.contains '+' then "试试先用加法，再用乘法。"
       else if solution.contains '*' && solution.contains '-' then "试试先用减法，再用乘法。"
       else if solution.contains '/' then "可能需要用到除法。"
       else "试试不同的运算顺序。",
   sorted)

/-! String-form expression evaluator of the key-value module
(validateExpression, evaluateExpression, evaluateWithParser, tokenize).  The
thrown Error messages are modelled by the constructors of KvError: the lexical
failure 无效字符, the arithmetic failure 除零错误, the two syntax failures
缺少右括号 and 意外的token, and the trailing-input failure 表达式解析不完整.
The recursive-descent parser advances an index over the token array; it is
embedded by passing the remaining token list, with a fuel argument bounding the
call depth (every nesting level consumes fuel, and the fuel passed by
evaluateWithParser exceeds any possible depth, so fuelOut is unreachable
there). -/

/-- Error classes of the string-form evaluator. -/
inductive KvError where
  | invalidChar (c : Char)
  | divisionByZero
  | missingRParen
  | unexpectedToken
  | trailingInput
  | fuelOut
deriving DecidableEq, Repr

/-- Token of the string tokenizer: a (multi-digit, base-10) number or one of
the six punctuation characters. -/
inductive KvTok where
  | num (n : ℕ)
  | plus
  | minus
  | star
  | slash
  | lp
  | rp
deriving DecidableEq, Repr

/-- Permitted alphabet of the string evaluator: digits and the characters
+ - * / ( ). -/
def allowedChar (c : Char) : Bool :=
  c.isDigit || c = '+' || c = '-' || c = '*' || c = '/' || c = '(' || c = ')'

/-- Whitespace removed by expression.replace before tokenizing: the full
ECMAScript backslash-s class, i.e. tab, line feed, vertical tab, form feed,
carriage return, space, no-break space, the Unicode space separators (Ogham
space mark, en quad through hair space, narrow no-break space, medium
mathematical space, ideographic space), the line and paragraph separators,
and the zero-width no-break space. -/
def jsWhitespace (c : Char) : Bool :=
  c = ' ' || c = '\t' || c = '\n' || c = '\r' ||
  c = '\x0b' || c = '\x0c' || c = '\u00A0' || c = '\u1680' ||
  (0x2000 ≤ c.toNat && c.toNat ≤ 0x200A) ||
  c = '\u2028' || c = '\u2029' || c = '\u202F' || c = '\u205F' ||
  c = '\u3000' || c = '\uFEFF'

/-- Whitespace removal of evaluateWithParser. -/
def stripSpaces (s : String) : List Char :=
  s.data.filter (fun c => !jsWhitespace c)

/-- parseInt on a run of digits. -/
def natOfDigits (ds : List Char) : ℕ :=
  ds.foldl (fun acc c => 10 * acc + (c.toNat - Char.toNat '0')) 0

/-- Single-character tokens of the tokenizer. -/
def charTok (c : Char) : Option KvTok :=
  if c = '+' then some .plus
  else if c = '-' then some .minus
  else if c = '*' then some .star
  else if c = '/' then some .slash
  else if c = '(' then some .lp
  else if c = ')' then some .rp
  else none

/-- Scan loop of tokenize: a digit starts a maximal digit run, the punctuation
characters become single tokens, anything else raises 无效字符.  The fuel
decreases on every step while each step consumes at least one character, so the
character count is sufficient fuel. -/
def kvTokenizeGo : Nat → List Char → Except KvError (List KvTok)
  | _, [] => .ok []
  | 0, _ :: _ => .error .fuelOut
  | fuel + 1, c :: cs =>
    if c.isDigit then
      match kvTokenizeGo fuel (cs.dropWhile Char.isDigit) with
      | .ok ts => .ok (.num (natOfDigits (c :: cs.takeWhile Char.isDigit)) :: ts)
      | .error e => .error e
    else
      match charTok c with
      | some t =>
        match kvTokenizeGo fuel cs with
        | .ok ts => .ok (t :: ts)
        | .error e => .error e
      | none => .error (.invalidChar c)

/-- tokenize of the key-value module. -/
def kvTokenize (cs : List Char) : Except KvError (List KvTok) :=
  kvTokenizeGo cs.length cs

mutual
/-- parseExpression of the string parser: a Term followed by any number of
plus or minus continuations. -/
def kvParseE : Nat → List KvTok → Except KvError (ℚ × List KvTok)
  | 0, _ => .error .fuelOut
  | fuel + 1, ts =>
    match kvParseT fuel ts with
    | .error e => .error e
    | .ok (v, r) => kvParseELoop fuel v r

/-- While loop of parseExpression over + and -. -/
def kvParseELoop : Nat → ℚ → List KvTok → Except KvError (ℚ × List KvTok)
  | 0, _, _ => .error .fuelOut
  | fuel + 1, v, ts =>
    match ts with
    | .plus :: r =>
      match kvParseT fuel r with
      | .error e => .error e
      | .ok (w, r2) => kvParseELoop fuel (v + w) r2
    | .minus :: r =>
      match kvParseT fuel r with
      | .error e => .error e
      | .ok (w, r2) => kvParseELoop fuel (v - w) r2
    | _ => .ok (v, ts)

/-- parseTerm of the string parser: a Factor followed by any number of star or
slash continuations. -/
def kvParseT : Nat → List KvTok → Except KvError (ℚ × List KvTok)
  | 0, _ => .error .fuelOut
  | fuel + 1, ts =>
    match kvParseF fuel ts with
    | .error e => .error e
    | .ok (v, r) => kvParseTLoop fuel v r

/-- While loop of parseTerm over * and /; a zero right operand of / raises
除零错误 before dividing. -/
def kvParseTLoop : Nat → ℚ → List KvTok → Except KvError (ℚ × List KvTok)
  | 0, _, _ => .error .fuelOut
  | fuel + 1, v, ts =>
    match ts with
    | .star :: r =>
      match kvParseF fuel r with
      | .error e => .error e
      | .ok (w, r2) => kvParseTLoop fuel (v * w) r2
    | .slash :: r =>
      match kvParseF fuel r with
      | .error e => .error e
      | .ok (w, r2) =>
        if w = 0 then .error .divisionByZero else kvParseTLoop fuel (v / w) r2
    | _ => .ok (v, ts)

/-- parseFactor of the string parser: a parenthesized expression (missing close
marker raises 缺少右括号), a number literal, a unary minus, or 意外的token. -/
def kvParseF : Nat → List KvTok → Except KvError (ℚ × List KvTok)
  | 0, _ => .error .fuelOut
  | fuel + 1, ts =>
    match ts with
    | .lp :: r =>
      match kvParseE fuel r with
      | .error e => .error e
      | .ok (v, r2) =>
        match r2 with
        | .rp :: r3 => .ok (v, r3)
        | _ => .error .missingRParen
    | .num n :: r => .ok ((n : ℚ), r)
    | .minus :: r =>
      match kvParseF fuel r with
      | .error e => .error e
      | .ok (v, r2) => .ok (-v, r2)
    | _ => .error .unexpectedToken
end

/-- evaluateWithParser: strip whitespace, tokenize, parse one top-level
Expression and require that every token was consumed; leftover input raises
表达式解析不完整.  The fuel passed to the parser strictly dominates the
recursion depth possible on the token list. -/
def evaluateWithParser (s : String) : Except KvError ℚ :=
  match kvTokenize (stripSpaces s) with
  | .error e => .error e
  | .ok toks =>
    match kvParseE (3 * toks.length + 3) toks with
    | .error e => .error e
    | .ok (v, rest) => if rest = [] then .ok v else .error .trailingInput

/-! Specification-side definitions.  These follow the wording of the
specification and are compared with the source embeddings above. -/

/-- Grammar levels of the standard arithmetic grammar: Factor, Term,
Expression. -/
inductive Lv where
  | f
  | t
  | e
deriving DecidableEq, Repr

/-- Standard precedence-correct grammar over flat tokens, together with the
standard reading of a token list as an AST: Expression is a left-associated
chain of Terms under + and -, Term a left-associated chain of Factors under ×
and ÷, Factor a number or a parenthesized Expression.  Gram lv xs t states
that the token list xs is produced by grammar level lv with standard reading
t; it is the specification of a syntactically valid sequence honoring operator
precedence and explicit parentheses. -/
inductive Gram : Lv → List Tok → TreeNode → Prop where
  | fnum (q : ℚ) : Gram .f [.num q] (.num q)
  | fparen {xs t} : Gram .e xs t → Gram .f (.lparen :: xs ++ [.rparen]) t
  | tf {xs t} : Gram .f xs t → Gram .t xs t
  | tmul {xs ys a b} (o : Oper) : precO o = 2 → Gram .t xs a → Gram .f ys b →
      Gram .t (xs ++ .op o :: ys) (.oper o a b)
  | et {xs t} : Gram .t xs t → Gram .e xs t
  | eadd {xs ys a b} (o : Oper) : precO o = 1 → Gram .e xs a → Gram .t ys b →
      Gram .e (xs ++ .op o :: ys) (.oper o a b)

/-- Postfix (reverse-polish) serialization of a tree. -/
def postToks : TreeNode → List Tok
  | .num q => [.num q]
  | .oper o l r => postToks l ++ postToks r ++ [.op o]

/-- Specification-side strict left-to-right fold ((n0 op0 n1) op1 n2) op2 n3,
with the NaN sentinel aborting. -/
def specFold (n0 n1 n2 n3 : ℚ) (o0 o1 o2 : Oper) : Option ℚ :=
  match opCalculate o0 n0 n1 with
  | none => none
  | some r1 =>
    match opCalculate o1 r1 n2 with
    | none => none
    | some r2 => opCalculate o2 r2 n3

/-- All 64 ordered operator triples. -/
def allOpTriples : List (Oper × Oper × Oper) :=
  getOperators.flatMap (fun a =>
    getOperators.flatMap (fun b =>
      getOperators.map (fun c => (a, b, c))))

/-- Specification-side solution set: the distinct rendered strings over all
permutations of the numbers and all ordered operator triples whose strict
left-to-right fold lands within 0.001 of 24. -/
def specSolutionSet (numbers : List ℚ) : Finset String :=
  (numbers.permutations.flatMap (fun p =>
    allOpTriples.filterMap (fun trip =>
      match p with
      | [n0, n1, n2, n3] =>
        match specFold n0 n1 n2 n3 trip.1 trip.2.1 trip.2.2 with
        | some r =>
          if |r - 24| < 1/1000 then
            some (renderSolution [n0, n1, n2, n3] [trip.1, trip.2.1, trip.2.2])
          else none
        | none => none
      | _ => none))).toFinset

/-- Specification-side difficulty: the clamp to the interval from 1 to 5 of
1, plus 0.5 per number greater than 10, plus 0.3 times (4 - distinct count)
when fewer than 4 distinct values are present, adjusted by the solution count
(0 forces 5, exactly 1 adds 1, more than 5 subtracts 0.5). -/
def specDifficulty (numbers : List ℚ) : ℚ :=
  let withLarge : ℚ :=
    1 + (1/2) * ((numbers.filter (fun n => 10 < n)).length : ℚ)
  let distinct := numbers.dedup.length
  let withRepeat : ℚ :=
    withLarge + (if distinct < 4 then (3/10) * ((4 : ℚ) - (distinct : ℚ)) else 0)
  let adjusted : ℚ :=
    if countSolutions numbers = 0 then 5
    else if countSolutions numbers = 1 then withRepeat + 1
    else if 5 < countSolutions numbers then withRepeat - 1/2
    else withRepeat
  max 1 (min 5 adjusted)

/-- Test for an operation node of multiplicative precedence. -/
def divMulRight : TreeNode → Bool
  | .oper o2 _ _ => precO o2 == 2
  | _ => false

/-- Trees in which no division node has a right child of equal (multiplicative)
precedence; on this class the renderer is semantics-preserving. -/
def noDivRightEq : TreeNode → Bool
  | .num _ => true
  | .oper o l r =>
    (!(o == .div && divMulRight r)) && noDivRightEq l && noDivRightEq r

/-- Trees containing a division whose right operand evaluates to zero. -/
def hasDivZero : TreeNode → Bool
  | .num _ => false
  | .oper o l r =>
    (o == .div && (evalT r == some 0)) || hasDivZero l || hasDivZero r

/-- Trees whose root is a number or a multiplicative operation (the shapes the
renderer may emit without parentheses inside a Term). -/
def mulOrNum : TreeNode → Bool
  | .num _ => true
  | .oper o _ _ => precO o == 2

/-- Stack condition under which a Term may be shunted: the stack top is not a
multiplicative operator. -/
def tBar : List Tok → Prop
  | .op o :: _ => precO o ≤ 1
  | _ => True

/-- Stack condition under which an Expression may be shunted: the stack top is
not an operator. -/
def eBar : List Tok → Prop
  | .op _ :: _ => False
  | _ => True

/-- Stacks consisting of operator tokens only. -/
def allOps (l : List Tok) : Prop :=
  ∀ x ∈ l, ∃ o, x = Tok.op o

/-- Pending part of a shunted Term: empty or one multiplicative operator. -/
def pendT (l : List Tok) : Prop :=
  l = [] ∨ ∃ o, precO o = 2 ∧ l = [Tok.op o]

/-- Invariant of the shunting-yard loop along a grammar derivation: a Factor
leaves the stack unchanged and emits its whole postfix; a Term or Expression
may leave pending operators on top of the stack (at most one multiplicative
operator for a Term; only operators for an Expression), and what was emitted
followed by the pending part is exactly the postfix of the reading. -/
def shuntSpec : Lv → List Tok → TreeNode → Prop
  | .f, xs, t => ∀ out st, xs.foldl shuntStep (out, st) = (out ++ postToks t, st)
  | .t, xs, t => ∀ out st, tBar st →
      ∃ A B, xs.foldl shuntStep (out, st) = (out ++ A, B ++ st) ∧
        A ++ B = postToks t ∧ pendT B
  | .e, xs, t => ∀ out st, eBar st →
      ∃ A B, xs.foldl shuntStep (out, st) = (out ++ A, B ++ st) ∧
        A ++ B = postToks t ∧ allOps B

/-- Concrete cards of scenario 1: the parenthesis-pair card 1 + 2 + 3 followed
by × and 4, encoding (1+2+3)×4. -/
def c2Cards : CardList :=
  .cons (.pair (.cons (.num 1) (.cons (.op .add) (.cons (.num 2)
    (.cons (.op .add) (.cons (.num 3) .nil))))))
    (.cons (.op .mul) (.cons (.num 4) .nil))

/-- Standard reading of the cards of scenario 1: ((1+2)+3)×4. -/
def c2Tree : TreeNode :=
  .oper .mul (.oper .add (.oper .add (.num 1) (.num 2)) (.num 3)) (.num 4)

/-- Validator-accepted but ungrammatical cards: 1 + 2 ( 3 ), an open marker in
operator position. -/
def c3Cards : CardList :=
  .cons (.num 1) (.cons (.op .add) (.cons (.num 2)
    (.cons (.pair (.cons (.num 3) .nil)) .nil)))

/-- Flat tokens of 12 ÷ (2 × 3). -/
def c4Toks : List Tok :=
  [.num 12, .op .div, .lparen, .num 2, .op .mul, .num 3, .rparen]

/-- AST of 12 ÷ (2 × 3). -/
def c4Tree : TreeNode :=
  .oper .div (.num 12) (.oper .mul (.num 2) (.num 3))

/-- Cards of 8 ÷ (3 - 3): a division whose right operand evaluates to zero. -/
def c5Cards : CardList :=
  .cons (.num 8) (.cons (.op .div)
    (.cons (.pair (.cons (.num 3) (.cons (.op .sub) (.cons (.num 3) .nil)))) .nil))

/-- AST of 8 ÷ (3 - 3). -/
def c5Tree : TreeNode :=
  .oper .div (.num 8) (.oper .sub (.num 3) (.num 3))

/-- Cards starting with an operator (scenario 5). -/
def c7Cards : CardList :=
  .cons (.op .add) (.cons (.num 1) .nil)

/-- Decidable equality of Except results, for evaluating the string parser on
concrete inputs. -/
instance {ε α : Type} [DecidableEq ε] [DecidableEq α] : DecidableEq (Except ε α) :=
  fun a b =>
  match a, b with
  | .ok x, .ok y =>
    if h : x = y then isTrue (by rw [h]) else
      isFalse (by intro hh; cases hh; exact h rfl)
  | .error e1, .error e2 =>
    if h : e1 = e2 then isTrue (by rw [h]) else
      isFalse (by intro hh; cases hh; exact h rfl)
  | .ok _, .error _ => isFalse (by intro hh; cases hh)
  | .error _, .ok _ => isFalse (by intro hh; cases hh)

/-! Shunting-yard machinery. -/

theorem precO_pos (o : Oper) : 1 ≤ precO o := by
  cases o <;> simp [precO]

theorem precO_le_two (o : Oper) : precO o ≤ 2 := by
  cases o <;> simp [precO]

theorem popGE_stop_e (o : Oper) (st : List Tok) (hst : eBar st) :
    popGE o st = ([], st) := by
  cases st with
  | nil => rfl
  | cons x r =>
    cases x with
    | op o2 => exact absurd hst (by simp [eBar])
    | num q => rfl
    | lparen => rfl
    | rparen => rfl

theorem popGE_stop_t (o : Oper) (h2 : precO o = 2) (st : List Tok) (hst : tBar st) :
    popGE o st = ([], st) := by
  cases st with
  | nil => rfl
  | cons x r =>
    cases x with
    | op o2 =>
      have hle : precO o2 ≤ 1 := hst
      have : ¬ precO o ≤ precO o2 := by omega
      simp [popGE, this]
    | num q => rfl
    | lparen => rfl
    | rparen => rfl

theorem popGE_pendT {o : Oper} {B st : List Tok} (h2 : precO o = 2)
    (hB : pendT B) (hst : tBar st) : popGE o (B ++ st) = (B, st) := by
  rcases hB with hB | ⟨o2, ho2, hB⟩
  · subst hB
    simpa using popGE_stop_t o h2 st hst
  · subst hB
    have hcond : precO o ≤ precO o2 := by omega
    simp [popGE, hcond, popGE_stop_t o h2 st hst]

theorem popGE_allops {o : Oper} {B st : List Tok} (h1 : precO o = 1)
    (hB : allOps B) (hst : eBar st) : popGE o (B ++ st) = (B, st) := by
  induction B with
  | nil => simpa using popGE_stop_e o st hst
  | cons x B2 ih =>
    obtain ⟨o2, rfl⟩ := hB x (by simp)
    have hcond : precO o ≤ precO o2 := by have := precO_pos o2; omega
    have ih2 := ih (fun y hy => hB y (by simp [hy]))
    simp [popGE, hcond, ih2]

theorem popToLParen_allops {B st : List Tok} (hB : allOps B) :
    popToLParen (B ++ .lparen :: st) = (B, st) := by
  induction B with
  | nil => rfl
  | cons x B2 ih =>
    obtain ⟨o2, rfl⟩ := hB x (by simp)
    have ih2 := ih (fun y hy => hB y (by simp [hy]))
    simp [popToLParen, ih2]

theorem pendT_allOps {B : List Tok} (h : pendT B) : allOps B := by
  rcases h with rfl | ⟨o, _, rfl⟩
  · intro x hx; cases hx
  · intro x hx
    simp only [List.mem_singleton] at hx
    exact ⟨o, hx⟩

theorem eBar_tBar {st : List Tok} (h : eBar st) : tBar st := by
  cases st with
  | nil => trivial
  | cons x r =>
    cases x with
    | op o => exact absurd h (by simp [eBar])
    | num q => trivial
    | lparen => trivial
    | rparen => trivial

theorem shunt_gram {lv : Lv} {xs : List Tok} {t : TreeNode} (h : Gram lv xs t) :
    shuntSpec lv xs t := by
  induction h with
  | fnum q =>
    intro out st
    simp [shuntStep, postToks]
  | fparen hE ihE =>
    intro out st
    have hbar : eBar (Tok.lparen :: st) := by trivial
    obtain ⟨A, B, hfold, hpost, hops⟩ := ihE out (.lparen :: st) hbar
    simp only [List.foldl_cons, List.foldl_append]
    have hstep : shuntStep (out, st) Tok.lparen = (out, .lparen :: st) := rfl
    rw [hstep, hfold]
    have : shuntStep (out ++ A, B ++ .lparen :: st) Tok.rparen = (out ++ A ++ B, st) := by
      simp [shuntStep, popToLParen_allops hops]
    simp only [List.foldl_cons, List.foldl_nil, this]
    rw [← hpost]
    simp
  | tf hF ihF =>
    rename_i xs2 t2
    intro out st _
    refine ⟨postToks t2, [], ?_, by simp, Or.inl rfl⟩
    simpa using ihF out st
  | tmul o h2 hT hF ihT ihF =>
    rename_i xs2 ys2 a2 b2
    intro out st hst
    obtain ⟨A1, B1, hfold1, hpost1, hpend1⟩ := ihT out st hst
    simp only [List.foldl_append, List.foldl_cons]
    rw [hfold1]
    have hstep : shuntStep (out ++ A1, B1 ++ st) (Tok.op o) =
        (out ++ A1 ++ B1, .op o :: st) := by
      simp [shuntStep, popGE_pendT h2 hpend1 hst]
    rw [hstep]
    have hfold2 := ihF (out ++ A1 ++ B1) (.op o :: st)
    rw [hfold2]
    refine ⟨A1 ++ B1 ++ postToks b2, [.op o], by simp, ?_, Or.inr ⟨o, h2, rfl⟩⟩
    simp only [postToks]
    rw [← hpost1]
  | et hT ihT =>
    intro out st hst
    obtain ⟨A, B, hfold, hpost, hpend⟩ := ihT out st (eBar_tBar hst)
    exact ⟨A, B, hfold, hpost, pendT_allOps hpend⟩
  | eadd o h1 hE hT ihE ihT =>
    intro out st hst
    obtain ⟨A1, B1, hfold1, hpost1, hops1⟩ := ihE out st hst
    simp only [List.foldl_append, List.foldl_cons]
    rw [hfold1]
    have hstep : shuntStep (out ++ A1, B1 ++ st) (Tok.op o) =
        (out ++ A1 ++ B1, .op o :: st) := by
      simp [shuntStep, popGE_allops h1 hops1 hst]
    rw [hstep]
    have htbar : tBar (Tok.op o :: st) := by
      show precO o ≤ 1
      omega
    obtain ⟨A2, B2, hfold2, hpost2, hpend2⟩ := ihT (out ++ A1 ++ B1) (.op o :: st) htbar
    rw [hfold2]
    refine ⟨A1 ++ B1 ++ A2, B2 ++ [.op o], by simp, ?_, ?_⟩
    · simp only [postToks]
      rw [← hpost1, ← hpost2]
      simp
    · intro x hx
      rcases List.mem_append.mp hx with hx | hx
      · exact pendT_allOps hpend2 x hx
      · simp only [List.mem_singleton] at hx
        exact ⟨o, hx⟩

theorem buildGo_post (t : TreeNode) :
    ∀ (rest : List Tok) (st : List TreeNode),
      buildGo (postToks t ++ rest) st = buildGo rest (t :: st) := by
  induction t with
  | num q => intro rest st; simp [postToks, buildGo]
  | oper o l r ihl ihr =>
    intro rest st
    simp only [postToks, List.append_assoc]
    rw [ihl, ihr]
    simp [buildGo]

theorem balGo_append (xs : List Tok) :
    ∀ (ys : List Tok) (b : ℤ), balGo b (xs ++ ys) =
      match balGo b xs with
      | some b2 => balGo b2 ys
      | none => none := by
  induction xs with
  | nil => intro ys b; simp [balGo]
  | cons x r ih =>
    intro ys b
    cases x with
    | num q => simpa [balGo] using ih ys b
    | op o => simpa [balGo] using ih ys b
    | lparen => simpa [balGo] using ih ys (b + 1)
    | rparen =>
      by_cases hb : b - 1 < 0
      · simp [balGo, hb]
      · simpa [balGo, hb] using ih ys (b - 1)

theorem gram_bal {lv : Lv} {xs : List Tok} {t : TreeNode} (h : Gram lv xs t) :
    ∀ b : ℤ, 0 ≤ b → balGo b xs = some b := by
  induction h with
  | fnum q => intro b hb; simp [balGo]
  | fparen hE ihE =>
    rename_i xs2 t2
    intro b hb
    have h1 : ¬ (b + 1 - 1 < 0) := by omega
    show balGo (b + 1) (xs2 ++ [Tok.rparen]) = some b
    rw [balGo_append]
    have hb1 : (0:ℤ) ≤ b + 1 := by omega
    rw [ihE (b + 1) hb1]
    have hb2 : b + 1 - 1 = b := by omega
    show (if b + 1 - 1 < 0 then none else balGo (b + 1 - 1) []) = some b
    rw [if_neg h1, hb2]
    rfl
  | tf hF ihF => exact ihF
  | tmul o h2 hT hF ihT ihF =>
    intro b hb
    rw [balGo_append, ihT b hb]
    simpa [balGo] using ihF b hb
  | et hT ihT => exact ihT
  | eadd o h1 hE hT ihE ihT =>
    intro b hb
    rw [balGo_append, ihE b hb]
    simpa [balGo] using ihT b hb

theorem gram_balanced {xs : List Tok} {t : TreeNode} (h : Gram .e xs t) :
    balancedOk xs = true := by
  simp [balancedOk, gram_bal h 0 le_rfl]

theorem tokenize_gram {xs : List Tok} {t : TreeNode} (h : Gram .e xs t) :
    tokenizeExpression xs = postToks t := by
  obtain ⟨A, B, hfold, hpost, _⟩ := shunt_gram h [] [] (by trivial)
  unfold tokenizeExpression
  rw [hfold]
  simpa using hpost

theorem parse_gram {xs : List Tok} {t : TreeNode} (h : Gram .e xs t) :
    parseExpression xs = some t := by
  unfold parseExpression
  rw [gram_balanced h]
  simp only [if_true]
  rw [tokenize_gram h]
  unfold buildAST
  have := buildGo_post t [] []
  simpa [buildGo] using this

/-! Validator lemmas. -/

theorem scanGo_append (xs : List Tok) :
    ∀ (ys : List Tok) (e : Bool), scanGo e (xs ++ ys) =
      match scanGo e xs with
      | some e2 => scanGo e2 ys
      | none => none := by
  induction xs with
  | nil => intro ys e; simp [scanGo]
  | cons x r ih =>
    intro ys e
    cases x with
    | num q =>
      by_cases he : e = true
      · subst he; simpa [scanGo] using ih ys false
      · simp only [Bool.not_eq_true] at he
        subst he; simp [scanGo]
    | op o =>
      by_cases he : e = true
      · subst he; simp [scanGo]
      · simp only [Bool.not_eq_true] at he
        subst he; simpa [scanGo] using ih ys true
    | lparen => simpa [scanGo] using ih ys true
    | rparen => simpa [scanGo] using ih ys false

theorem gram_scan {lv : Lv} {xs : List Tok} {t : TreeNode} (h : Gram lv xs t) :
    scanGo true xs = some false := by
  induction h with
  | fnum q => rfl
  | fparen hE ihE =>
    rename_i xs2 t2
    show scanGo true (xs2 ++ [Tok.rparen]) = some false
    rw [scanGo_append, ihE]
    rfl
  | tf hF ihF => exact ihF
  | tmul o h2 hT hF ihT ihF =>
    rw [scanGo_append, ihT]
    exact ihF
  | et hT ihT => exact ihT
  | eadd o h1 hE hT ihE ihT =>
    rw [scanGo_append, ihE]
    exact ihT

theorem gram_ne {lv : Lv} {xs : List Tok} {t : TreeNode} (h : Gram lv xs t) :
    xs ≠ [] := by
  induction h with
  | fnum q => simp
  | fparen hE ihE => simp
  | tf hF ihF => exact ihF
  | tmul o h2 hT hF ihT ihF => simp
  | et hT ihT => exact ihT
  | eadd o h1 hE hT ihE ihT => simp

theorem firstTokOk_append (xs ys : List Tok) (h : xs ≠ []) :
    firstTokOk (xs ++ ys) = firstTokOk xs := by
  cases xs with
  | nil => exact absurd rfl h
  | cons x r => cases x <;> rfl

theorem gram_first {lv : Lv} {xs : List Tok} {t : TreeNode} (h : Gram lv xs t) :
    firstTokOk xs = true := by
  induction h with
  | fnum q => rfl
  | fparen hE ihE => rfl
  | tf hF ihF => exact ihF
  | tmul o h2 hT hF ihT ihF =>
    rename_i xs2 ys2 a2 b2
    rw [firstTokOk_append xs2 (.op o :: ys2) (gram_ne hT)]
    exact ihT
  | et hT ihT => exact ihT
  | eadd o h1 hE hT ihE ihT =>
    rename_i xs2 ys2 a2 b2
    rw [firstTokOk_append xs2 (.op o :: ys2) (gram_ne hE)]
    exact ihE

theorem lastTokOk_append (xs ys : List Tok) (h : ys ≠ []) :
    lastTokOk (xs ++ ys) = lastTokOk ys := by
  unfold lastTokOk
  rw [List.getLast?_append]
  cases hy : ys.getLast? with
  | none =>
    rw [List.getLast?_eq_none_iff] at hy
    exact absurd hy h
  | some y => simp

theorem gram_last {lv : Lv} {xs : List Tok} {t : TreeNode} (h : Gram lv xs t) :
    lastTokOk xs = true := by
  induction h with
  | fnum q => rfl
  | fparen hE ihE =>
    rename_i xs2 t2
    show lastTokOk ((Tok.lparen :: xs2) ++ [Tok.rparen]) = true
    rw [lastTokOk_append (Tok.lparen :: xs2) [Tok.rparen] (by simp)]
    rfl
  | tf hF ihF => exact ihF
  | tmul o h2 hT hF ihT ihF =>
    rename_i xs2 ys2 a2 b2
    rw [lastTokOk_append xs2 (.op o :: ys2) (by simp)]
    show lastTokOk ([Tok.op o] ++ ys2) = true
    rw [lastTokOk_append [Tok.op o] ys2 (gram_ne hF)]
    exact ihF
  | et hT ihT => exact ihT
  | eadd o h1 hE hT ihE ihT =>
    rename_i xs2 ys2 a2 b2
    rw [lastTokOk_append xs2 (.op o :: ys2) (by simp)]
    show lastTokOk ([Tok.op o] ++ ys2) = true
    rw [lastTokOk_append [Tok.op o] ys2 (gram_ne hT)]
    exact ihT

theorem valid_gram {xs : List Tok} {t : TreeNode} (h : Gram .e xs t) :
    validFlat xs = true := by
  have hne : xs.isEmpty = false := by
    cases xs with
    | nil => exact absurd rfl (gram_ne h)
    | cons a r => rfl
  unfold validFlat
  rw [hne, gram_first h, gram_last h, gram_scan h, gram_balanced h]
  rfl

/-! Facade lemmas. -/

theorem gram_cards_ne {cards : CardList} {t : TreeNode}
    (h : Gram .e (flattenCards cards) t) : cards.isEmpty = false := by
  cases cards with
  | nil => exact absurd rfl (gram_ne h)
  | cons c cs => rfl

theorem valid_of_gram {cards : CardList} {t : TreeNode}
    (h : Gram .e (flattenCards cards) t) : isValidCardSequence cards = true := by
  unfold isValidCardSequence
  rw [gram_cards_ne h, valid_gram h]
  rfl

theorem calculateExpression_parsed (cards : CardList) (t : TreeNode)
    (hne : cards.isEmpty = false) (hv : isValidCardSequence cards = true)
    (hp : parseExpression (flattenCards cards) = some t) :
    calculateExpression cards = ⟨(evalT t).map round2,
      String.intercalate " " ((flattenCards cards).map tokDisplay),
      resultIsCorrect (evalT t),
      some ["计算表达式: " ++ generateExpressionString t]⟩ := by
  unfold calculateExpression
  rw [hne, hv]
  simp only [Bool.not_true, Bool.false_eq_true, if_false]
  rw [hp]

/-- C2: for every card sequence whose flattened form conforms to the standard
arithmetic grammar (the reading that honors the precedence of × and ÷ over
+ and - together with explicit parentheses), calculateExpression accepts the
sequence and evaluates it to the standard reading (rounded to two decimals),
with the correctness flag exactly when that value is within 0.001 of 24; and
on the concrete cards for (1+2+3)×4 the result is 24 with isCorrect true. -/
theorem spec_c2 :
    (∀ (cards : CardList) (t : TreeNode), Gram .e (flattenCards cards) t →
      isValidCardSequence cards = true ∧
      (calculateExpression cards).result = (evalT t).map round2 ∧
      ((calculateExpression cards).isCorrect = true ↔
        ∃ r, evalT t = some r ∧ |r - 24| < 1/1000)) ∧
    (calculateExpression c2Cards).result = some 24 ∧
    (calculateExpression c2Cards).isCorrect = true := by
  have huniv : ∀ (cards : CardList) (t : TreeNode), Gram .e (flattenCards cards) t →
      isValidCardSequence cards = true ∧
      (calculateExpression cards).result = (evalT t).map round2 ∧
      ((calculateExpression cards).isCorrect = true ↔
        ∃ r, evalT t = some r ∧ |r - 24| < 1/1000) := by
    intro cards t hg
    have hne := gram_cards_ne hg
    have hv := valid_of_gram hg
    have hcalc := calculateExpression_parsed cards t hne hv (parse_gram hg)
    refine ⟨hv, by rw [hcalc], ?_⟩
    rw [hcalc]
    show resultIsCorrect (evalT t) = true ↔ _
    cases hev : evalT t with
    | none => simp [resultIsCorrect]
    | some r => simp [resultIsCorrect]
  have hgram : Gram .e (flattenCards c2Cards) c2Tree := by
    have e1 : Gram .e [Tok.num 1, .op .add, .num 2]
        (.oper .add (.num 1) (.num 2)) :=
      Gram.eadd .add rfl (Gram.et (Gram.tf (Gram.fnum 1))) (Gram.tf (Gram.fnum 2))
    have e2 : Gram .e [Tok.num 1, .op .add, .num 2, .op .add, .num 3]
        (.oper .add (.oper .add (.num 1) (.num 2)) (.num 3)) :=
      Gram.eadd .add rfl e1 (Gram.tf (Gram.fnum 3))
    have f1 : Gram .f
        [Tok.lparen, .num 1, .op .add, .num 2, .op .add, .num 3, .rparen]
        (.oper .add (.oper .add (.num 1) (.num 2)) (.num 3)) :=
      Gram.fparen e2
    exact Gram.et (Gram.tmul .mul rfl (Gram.tf f1) (Gram.fnum 4))
  obtain ⟨hv, hres, hcor⟩ := huniv c2Cards c2Tree hgram
  have hev : evalT c2Tree = some 24 := by
    show opCalcO .mul (opCalcO .add (opCalcO .add (some 1) (some 2)) (some 3))
        (some 4) = some 24
    simp [opCalcO, opCalculate]
    norm_num
  refine ⟨huniv, ?_, ?_⟩
  · rw [hres, hev]
    show some (round2 24) = some 24
    have : round ((24 : ℚ) * 100) = 2400 := by
      rw [show ((24 : ℚ) * 100) = ((2400 : ℤ) : ℚ) by norm_num]
      exact round_intCast 2400
    simp [round2, this]
    norm_num
  · rw [hcor]
    exact ⟨24, hev, by norm_num⟩

/-- C2 witness: the universal part instantiated at the flat sequence 5 + 19. -/
theorem spec_c2_witness :
    isValidCardSequence
        (CardList.cons (.num 5) (.cons (.op .add) (.cons (.num 19) .nil))) = true ∧
    (calculateExpression
        (CardList.cons (.num 5) (.cons (.op .add) (.cons (.num 19) .nil)))).result =
      (evalT (.oper .add (.num 5) (.num 19))).map round2 ∧
    ((calculateExpression
        (CardList.cons (.num 5) (.cons (.op .add) (.cons (.num 19) .nil)))).isCorrect = true ↔
      ∃ r, evalT (.oper .add (.num 5) (.num 19)) = some r ∧ |r - 24| < 1/1000) :=
  spec_c2.1 (CardList.cons (.num 5) (.cons (.op .add) (.cons (.num 19) .nil)))
    (.oper .add (.num 5) (.num 19))
    (Gram.eadd .add rfl (Gram.et (Gram.tf (Gram.fnum 5))) (Gram.tf (Gram.fnum 19)))

/-- C3 counterexample: the card sequence 1 + 2 ( 3 ) is accepted by the
Sequence Validator, yet parseExpression returns null on its flattened form, so
the parser's failure branch is reachable on validator-accepted input. -/
theorem spec_c3_cex :
    isValidCardSequence c3Cards = true ∧
    parseExpression (flattenCards c3Cards) = none := by
  constructor
  · decide
  · decide

/-- C3 (amended): on every flattened token sequence conforming to the
arithmetic grammar of the specification (which the validator only
approximates), parseExpression produces a non-null AST. -/
theorem spec_c3 (xs : List Tok) (t : TreeNode) (h : Gram .e xs t) :
    (parseExpression xs).isSome = true := by
  rw [parse_gram h]
  rfl

/-- C3 witness: the amended theorem applied to the singleton sequence 5. -/
theorem spec_c3_witness : (parseExpression [Tok.num 5]).isSome = true :=
  spec_c3 [Tok.num 5] (.num 5) (Gram.et (Gram.tf (Gram.fnum 5)))

/-! Renderer round-trip machinery. -/

theorem precO_dichotomy (o : Oper) : precO o = 1 ∨ precO o = 2 := by
  cases o <;> simp [precO]

theorem opCalcO_add_assoc (o : Oper) (h : precO o = 1) (x y z : Option ℚ) :
    opCalcO o (opCalcO .add x y) z = opCalcO .add x (opCalcO o y z) := by
  cases o with
  | mul => simp [precO] at h
  | div => simp [precO] at h
  | add =>
    cases x with
    | none => rfl
    | some a =>
      cases y with
      | none => rfl
      | some b =>
        cases z with
        | none => rfl
        | some c =>
          show some (a + b + c) = some (a + (b + c))
          rw [add_assoc]
  | sub =>
    cases x with
    | none => rfl
    | some a =>
      cases y with
      | none => rfl
      | some b =>
        cases z with
        | none => rfl
        | some c =>
          show some (a + b - c) = some (a + (b - c))
          rw [add_sub_assoc]

theorem opCalcO_mul_assoc (o : Oper) (h : precO o = 2) (x y z : Option ℚ) :
    opCalcO o (opCalcO .mul x y) z = opCalcO .mul x (opCalcO o y z) := by
  cases o with
  | add => simp [precO] at h
  | sub => simp [precO] at h
  | mul =>
    cases x with
    | none => rfl
    | some a =>
      cases y with
      | none => rfl
      | some b =>
        cases z with
        | none => rfl
        | some c =>
          show some (a * b * c) = some (a * (b * c))
          rw [mul_assoc]
  | div =>
    cases x with
    | none => rfl
    | some a =>
      cases y with
      | none => rfl
      | some b =>
        cases z with
        | none => rfl
        | some c =>
          show opCalculate .div (a * b) c = opCalcO .mul (some a) (opCalculate .div b c)
          by_cases hc : c = 0
          · simp [opCalculate, hc, opCalcO]
          · simp [opCalculate, hc, opCalcO, mul_div_assoc]

theorem gram_append_add {lv : Lv} {ys : List Tok} {b : TreeNode} (h : Gram lv ys b) :
    lv = Lv.e → ∀ (xs : List Tok) (a : TreeNode), Gram .e xs a →
      ∃ c, Gram .e (xs ++ .op .add :: ys) c ∧
        evalT c = opCalcO .add (evalT a) (evalT b) := by
  induction h with
  | fnum q => intro hlv; exact absurd hlv (by decide)
  | fparen hE ihE => intro hlv; exact absurd hlv (by decide)
  | tf hF ihF => intro hlv; exact absurd hlv (by decide)
  | tmul o h2 hT hF ihT ihF => intro hlv; exact absurd hlv (by decide)
  | et hT ihT =>
    rename_i ys2 b2
    intro _ xs a ha
    exact ⟨.oper .add a b2, Gram.eadd .add rfl ha hT, rfl⟩
  | eadd o h1 hE hT ihE ihT =>
    rename_i ys2 zs b2 bz
    intro _ xs a ha
    obtain ⟨c2, hc2, hev⟩ := ihE rfl xs a ha
    refine ⟨.oper o c2 bz, ?_, ?_⟩
    · have hg := Gram.eadd o h1 hc2 hT
      simpa [List.append_assoc] using hg
    · show opCalcO o (evalT c2) (evalT bz) = _
      rw [hev]
      exact opCalcO_add_assoc o h1 _ _ _

theorem gram_append_mul {lv : Lv} {ys : List Tok} {b : TreeNode} (h : Gram lv ys b) :
    lv = Lv.t → ∀ (xs : List Tok) (a : TreeNode), Gram .t xs a →
      ∃ c, Gram .t (xs ++ .op .mul :: ys) c ∧
        evalT c = opCalcO .mul (evalT a) (evalT b) := by
  induction h with
  | fnum q => intro hlv; exact absurd hlv (by decide)
  | fparen hE ihE => intro hlv; exact absurd hlv (by decide)
  | et hT ihT => intro hlv; exact absurd hlv (by decide)
  | eadd o h1 hE hT ihE ihT => intro hlv; exact absurd hlv (by decide)
  | tf hF ihF =>
    rename_i ys2 b2
    intro _ xs a ha
    exact ⟨.oper .mul a b2, Gram.tmul .mul rfl ha hF, rfl⟩
  | tmul o h2 hT hF ihT ihF =>
    rename_i ys2 zs b2 bz
    intro _ xs a ha
    obtain ⟨c2, hc2, hev⟩ := ihT rfl xs a ha
    refine ⟨.oper o c2 bz, ?_, ?_⟩
    · have hg := Gram.tmul o h2 hc2 hF
      simpa [List.append_assoc] using hg
    · show opCalcO o (evalT c2) (evalT bz) = _
      rw [hev]
      exact opCalcO_mul_assoc o h2 _ _ _

theorem noDiv_left {o : Oper} {l r : TreeNode}
    (h : noDivRightEq (.oper o l r) = true) : noDivRightEq l = true := by
  simp only [noDivRightEq, Bool.and_eq_true] at h
  exact h.1.2

theorem noDiv_right {o : Oper} {l r : TreeNode}
    (h : noDivRightEq (.oper o l r) = true) : noDivRightEq r = true := by
  simp only [noDivRightEq, Bool.and_eq_true] at h
  exact h.2

theorem noDiv_head {l r : TreeNode}
    (h : noDivRightEq (.oper .div l r) = true) : divMulRight r = false := by
  simp only [noDivRightEq, Bool.and_eq_true] at h
  have h1 := h.1.1
  simpa using h1

theorem render_gram (t : TreeNode) :
    (noDivRightEq t = true →
      ∃ t2, Gram .e (generateExpressionToks t) t2 ∧ evalT t2 = evalT t) ∧
    (noDivRightEq t = true → mulOrNum t = true →
      ∃ t2, Gram .t (generateExpressionToks t) t2 ∧ evalT t2 = evalT t) := by
  induction t with
  | num q =>
    exact ⟨fun _ => ⟨.num q, Gram.et (Gram.tf (Gram.fnum q)), rfl⟩,
           fun _ _ => ⟨.num q, Gram.tf (Gram.fnum q), rfl⟩⟩
  | oper o l r ihl ihr =>
    rcases precO_dichotomy o with hpo | hpo
    · -- additive parent: never inside a Term without parentheses
      have epart : noDivRightEq (.oper o l r) = true →
          ∃ t2, Gram .e (generateExpressionToks (.oper o l r)) t2 ∧
            evalT t2 = evalT (.oper o l r) := by
        intro hnd
        have hndl := noDiv_left hnd
        have hndr := noDiv_right hnd
        have hL : needsParensL l o = false := by
          cases l with
          | num q => rfl
          | oper ol ll lr =>
            have := precO_pos ol
            simp [needsParensL, hpo]
            omega
        obtain ⟨a2, ha2, hae⟩ := ihl.1 hndl
        cases r with
        | num q =>
          refine ⟨.oper o a2 (.num q), ?_, ?_⟩
          · have hg := Gram.eadd o hpo ha2 (Gram.tf (Gram.fnum q))
            simpa [generateExpressionToks, hL, needsParensR] using hg
          · show opCalcO o (evalT a2) (some q) = opCalcO o (evalT l) (some q)
            rw [hae]
        | oper o2 rl rr =>
          rcases precO_dichotomy o2 with hp2 | hp2
          · by_cases ho : o = .sub
            · have hR : needsParensR (.oper o2 rl rr) o = true := by
                rw [ho]
                simp only [needsParensR, hp2]
                decide
              obtain ⟨b2, hb2, hbe⟩ := ihr.1 hndr
              refine ⟨.oper o a2 b2, ?_, ?_⟩
              · have hg := Gram.eadd o hpo ha2 (Gram.tf (Gram.fparen hb2))
                simpa [generateExpressionToks, hL, hR] using hg
              · show opCalcO o (evalT a2) (evalT b2) = _
                rw [hae, hbe]
                rfl
            · have hoa : o = .add := by
                cases o <;> simp_all [precO]
              subst hoa
              have hR : needsParensR (.oper o2 rl rr) .add = false := by
                simp only [needsParensR, hp2]
                decide
              obtain ⟨b2, hb2, hbe⟩ := ihr.1 hndr
              obtain ⟨c, hc, hce⟩ :=
                gram_append_add hb2 rfl (generateExpressionToks l) a2 ha2
              refine ⟨c, ?_, ?_⟩
              · simpa [generateExpressionToks, hL, hR] using hc
              · rw [hce, hae, hbe]
                rfl
          · have hR : needsParensR (.oper o2 rl rr) o = false := by
              simp only [needsParensR, hp2, hpo]
              simp
            obtain ⟨b2, hb2, hbe⟩ := ihr.2 hndr (by simp [mulOrNum, hp2])
            refine ⟨.oper o a2 b2, ?_, ?_⟩
            · have hg := Gram.eadd o hpo ha2 hb2
              simpa [generateExpressionToks, hL, hR] using hg
            · show opCalcO o (evalT a2) (evalT b2) = _
              rw [hae, hbe]
              rfl
      refine ⟨epart, fun hnd hmn => ?_⟩
      rw [mulOrNum] at hmn
      simp [hpo] at hmn
    · -- multiplicative parent
      have tpart : noDivRightEq (.oper o l r) = true →
          ∃ t2, Gram .t (generateExpressionToks (.oper o l r)) t2 ∧
            evalT t2 = evalT (.oper o l r) := by
        intro hnd
        have hndl := noDiv_left hnd
        have hndr := noDiv_right hnd
        have hleft : ∃ a2,
            Gram .t (if needsParensL l o
              then .lparen :: generateExpressionToks l ++ [.rparen]
              else generateExpressionToks l) a2 ∧ evalT a2 = evalT l := by
          cases l with
          | num q =>
            refine ⟨.num q, ?_, rfl⟩
            simpa [needsParensL] using Gram.tf (Gram.fnum q)
          | oper ol ll lr =>
            rcases precO_dichotomy ol with hpl | hpl
            · have hLp : needsParensL (.oper ol ll lr) o = true := by
                simp [needsParensL, hpl, hpo]
              obtain ⟨a2, ha2, hae⟩ := ihl.1 hndl
              refine ⟨a2, ?_, hae⟩
              simpa [hLp] using Gram.tf (Gram.fparen ha2)
            · have hLp : needsParensL (.oper ol ll lr) o = false := by
                simp [needsParensL, hpl, hpo]
              obtain ⟨a2, ha2, hae⟩ := ihl.2 hndl (by simp [mulOrNum, hpl])
              refine ⟨a2, ?_, hae⟩
              simpa [hLp] using ha2
        obtain ⟨a2, ha2, hae⟩ := hleft
        cases r with
        | num q =>
          refine ⟨.oper o a2 (.num q), ?_, ?_⟩
          · have hg := Gram.tmul o hpo ha2 (Gram.fnum q)
            simpa [generateExpressionToks, needsParensR] using hg
          · show opCalcO o (evalT a2) (some q) = _
            rw [hae]
            rfl
        | oper o2 rl rr =>
          rcases precO_dichotomy o2 with hp2 | hp2
          · have hR : needsParensR (.oper o2 rl rr) o = true := by
              simp [needsParensR, hp2, hpo]
            obtain ⟨b2, hb2, hbe⟩ := ihr.1 hndr
            refine ⟨.oper o a2 b2, ?_, ?_⟩
            · have hg := Gram.tmul o hpo ha2 (Gram.fparen hb2)
              simpa [generateExpressionToks, hR] using hg
            · show opCalcO o (evalT a2) (evalT b2) = _
              rw [hae, hbe]
              rfl
          · by_cases ho : o = .div
            · exfalso
              subst ho
              have := noDiv_head hnd
              simp [divMulRight, hp2] at this
            · have hom : o = .mul := by
                cases o <;> simp_all [precO]
              subst hom
              have hR : needsParensR (.oper o2 rl rr) .mul = false := by
                simp only [needsParensR, hp2]
                decide
              obtain ⟨b2, hb2, hbe⟩ := ihr.2 hndr (by simp [mulOrNum, hp2])
              obtain ⟨c, hc, hce⟩ := gram_append_mul hb2 rfl _ a2 ha2
              refine ⟨c, ?_, ?_⟩
              · simpa [generateExpressionToks, hR] using hc
              · rw [hce, hae, hbe]
                rfl
      refine ⟨fun hnd => ?_, fun hnd _ => tpart hnd⟩
      obtain ⟨t2, hg, he⟩ := tpart hnd
      exact ⟨t2, Gram.et hg, he⟩

/-- C4 counterexample: the parser produces the AST 12 ÷ (2 × 3) (value 2), but
the renderer omits the parentheses around the equal-precedence right child of
the division, so re-parsing the rendered string yields (12 ÷ 2) × 3 = 18, which
is not within 0.001 of the original value. -/
theorem spec_c4_cex :
    parseExpression c4Toks = some c4Tree ∧
    evaluateAST (some c4Tree) = some 2 ∧
    evaluateAST (parseExpression (generateExpressionToks c4Tree)) = some 18 ∧
    evaluateAST (parseExpression (generateExpressionToks c4Tree)) ≠
      evaluateAST (some c4Tree) ∧
    ¬ |(18 : ℚ) - 2| < 1/1000 := by
  refine ⟨?_, ?_, ?_, ?_, ?_⟩ <;> with_unfolding_all decide

/-- C4 (amended): for every AST produced by the parser in which no division
node has a right child of equal (multiplicative) precedence, re-parsing the
token sequence of the rendered string evaluates to exactly the same value as
the original AST (hence trivially within tolerance 0.001). -/
theorem spec_c4 (xs : List Tok) (t : TreeNode)
    (hp : parseExpression xs = some t) (hnd : noDivRightEq t = true) :
    evaluateAST (parseExpression (generateExpressionToks t)) =
      evaluateAST (some t) := by
  obtain ⟨t2, hg, he⟩ := (render_gram t).1 hnd
  rw [parse_gram hg]
  exact he

/-- C4 witness: the amended theorem applied to the parse of 8 ÷ (4 - 2). -/
theorem spec_c4_witness :
    evaluateAST (parseExpression (generateExpressionToks
      (.oper .div (.num 8) (.oper .sub (.num 4) (.num 2))))) =
    evaluateAST (some (.oper .div (.num 8) (.oper .sub (.num 4) (.num 2)))) :=
  spec_c4 [.num 8, .op .div, .lparen, .num 4, .op .sub, .num 2, .rparen]
    (.oper .div (.num 8) (.oper .sub (.num 4) (.num 2)))
    (by with_unfolding_all decide) (by decide)

/-! Division-by-zero propagation. -/

theorem evalT_none_of_hasDivZero {t : TreeNode} (h : hasDivZero t = true) :
    evalT t = none := by
  induction t with
  | num q => simp [hasDivZero] at h
  | oper o l r ihl ihr =>
    simp only [hasDivZero, Bool.or_eq_true, Bool.and_eq_true] at h
    rcases h with (⟨ho, hr⟩ | hl) | hr
    · have ho2 : o = .div := by simpa using ho
      have hr2 : evalT r = some 0 := by simpa using hr
      subst ho2
      show opCalcO .div (evalT l) (evalT r) = none
      rw [hr2]
      cases evalT l with
      | none => rfl
      | some a =>
        show opCalculate .div a 0 = none
        simp [opCalculate]
    · show opCalcO o (evalT l) (evalT r) = none
      rw [ihl hl]
      cases evalT r <;> rfl
    · show opCalcO o (evalT l) (evalT r) = none
      rw [ihr hr]
      cases evalT l <;> rfl

/-- C5: the division operator of the OPERATORS table yields the NaN sentinel
on a zero divisor for every dividend, and every card sequence whose parsed AST
contains a division whose right operand evaluates to zero produces the NaN
result with isCorrect false (the validator- and parse-failure paths produce
the same NaN/incorrect outcome, so the conclusion covers every such
sequence). -/
theorem spec_c5 :
    (∀ a : ℚ, opCalculate .div a 0 = none) ∧
    (∀ (cards : CardList) (t : TreeNode),
      parseExpression (flattenCards cards) = some t → hasDivZero t = true →
      (calculateExpression cards).result = none ∧
      (calculateExpression cards).isCorrect = false) := by
  constructor
  · intro a
    simp [opCalculate]
  · intro cards t hp hdz
    have hev := evalT_none_of_hasDivZero hdz
    cases hemp : cards.isEmpty with
    | true =>
      cases cards with
      | nil =>
        have hnone : parseExpression (flattenCards CardList.nil) = none := by decide
        rw [hnone] at hp
        cases hp
      | cons c cs => simp [CardList.isEmpty] at hemp
    | false =>
      cases hv : isValidCardSequence cards with
      | false =>
        have hca : calculateExpression cards = ⟨none, "", false, none⟩ := by
          simp [calculateExpression, hemp, hv]
        rw [hca]
        exact ⟨rfl, rfl⟩
      | true =>
        have hcalc := calculateExpression_parsed cards t hemp hv hp
        rw [hcalc]
        constructor
        · show (evalT t).map round2 = none
          rw [hev]
          rfl
        · show resultIsCorrect (evalT t) = false
          rw [hev]
          rfl

/-- C5 witness: the division entry at 5 ÷ 0, and the cards 8 ÷ (3 - 3). -/
theorem spec_c5_witness :
    opCalculate .div 5 0 = none ∧
    ((calculateExpression c5Cards).result = none ∧
     (calculateExpression c5Cards).isCorrect = false) :=
  ⟨spec_c5.1 5,
   spec_c5.2 c5Cards c5Tree (by with_unfolding_all decide)
     (by with_unfolding_all decide)⟩

/-- C7: the empty card list yields the zero/incorrect result with an empty
expression, and every non-empty card list rejected by the Sequence Validator
yields the NaN result with an empty expression string and isCorrect false; no
other outcome (in particular no exception path) exists on these branches. -/
theorem spec_c7 :
    calculateExpression CardList.nil = ⟨some 0, "", false, none⟩ ∧
    ∀ cards : CardList, cards.isEmpty = false →
      isValidCardSequence cards = false →
      calculateExpression cards = ⟨none, "", false, none⟩ := by
  constructor
  · rfl
  · intro cards hemp hv
    simp [calculateExpression, hemp, hv]

/-- C7 witness: the operator-first sequence + 1 of scenario 5. -/
theorem spec_c7_witness :
    c7Cards.isEmpty = false ∧ isValidCardSequence c7Cards = false ∧
    calculateExpression c7Cards = ⟨none, "", false, none⟩ :=
  ⟨rfl, by decide, spec_c7.2 c7Cards rfl (by decide)⟩

/-- C8: generateQuestionHash is invariant under permutation of its input, and
equals the ascending sort of the numbers joined with commas. -/
theorem spec_c8 (l1 l2 : List ℚ) (h4 : l1.length = 4) (hperm : l1.Perm l2) :
    generateQuestionHash l1 = generateQuestionHash l2 ∧
    generateQuestionHash l1 =
      String.intercalate "," ((jsSortNums l1).map toString) := by
  refine ⟨?_, rfl⟩
  have htrans : ∀ a b c : ℚ, decide (a ≤ b) = true → decide (b ≤ c) = true →
      decide (a ≤ c) = true := by
    intro a b c hab hbc
    simp only [decide_eq_true_eq] at hab hbc ⊢
    exact le_trans hab hbc
  have htotal : ∀ a b : ℚ, (decide (a ≤ b) || decide (b ≤ a)) = true := by
    intro a b
    simp only [Bool.or_eq_true, decide_eq_true_eq]
    exact le_total a b
  have hs1 : List.Sorted (· ≤ ·) (jsSortNums l1) :=
    (List.sorted_mergeSort htrans htotal l1).imp (fun h => of_decide_eq_true h)
  have hs2 : List.Sorted (· ≤ ·) (jsSortNums l2) :=
    (List.sorted_mergeSort htrans htotal l2).imp (fun h => of_decide_eq_true h)
  have hp : (jsSortNums l1).Perm (jsSortNums l2) :=
    ((l1.mergeSort_perm _).trans hperm).trans (l2.mergeSort_perm _).symm
  have hsorteq : jsSortNums l1 = jsSortNums l2 :=
    List.eq_of_perm_of_sorted hp hs1 hs2
  unfold generateQuestionHash
  rw [hsorteq]

/-- C8 witness: the hash of 3,1,2,4 equals the hash of 1,2,3,4. -/
theorem spec_c8_witness :
    ([3, 1, 2, 4] : List ℚ).length = 4 ∧
    (generateQuestionHash [3, 1, 2, 4] = generateQuestionHash [1, 2, 3, 4] ∧
     generateQuestionHash [3, 1, 2, 4] =
       String.intercalate "," ((jsSortNums [3, 1, 2, 4]).map toString)) :=
  ⟨rfl, spec_c8 [3, 1, 2, 4] [1, 2, 3, 4] rfl (by decide)⟩

/-- C6: calculateDifficulty computes exactly the specification formula (base 1,
0.5 per number above 10, 0.3 per missing distinct value, solution-count
adjustment, clamp to the interval from 1 to 5), and on 1,1,1,1 the solution
count is 0, hasSolution is false and the difficulty is forced to 5. -/
theorem spec_c6 :
    (∀ numbers : List ℚ, calculateDifficulty numbers = specDifficulty numbers) ∧
    countSolutions [1, 1, 1, 1] = 0 ∧
    hasSolution [1, 1, 1, 1] = false ∧
    calculateDifficulty [1, 1, 1, 1] = 5 := by
  have huniv : ∀ numbers : List ℚ,
      calculateDifficulty numbers = specDifficulty numbers := by
    intro numbers
    simp only [calculateDifficulty, specDifficulty]
    split_ifs <;> ring_nf
  have hcount : countSolutions [1, 1, 1, 1] = 0 := by with_unfolding_all decide
  refine ⟨huniv, hcount, ?_, ?_⟩
  · simp [hasSolution, hcount]
  · rw [huniv]
    simp only [specDifficulty, hcount]
    norm_num

/-! Combinatorics machinery: the permutation generator produces exactly the
permutations, the operator-combination generator exactly the length-n operator
lists, and the left-to-right fold agrees with the specification fold. -/

theorem perm_get_cons_eraseIdx (l : List ℚ) :
    ∀ (i : Nat) (hi : i < l.length), l.Perm (l.get ⟨i, hi⟩ :: l.eraseIdx i) := by
  induction l with
  | nil => intro i hi; simp at hi
  | cons x xs ih =>
    intro i hi
    cases i with
    | zero => exact List.Perm.refl _
    | succ n =>
      have hn : n < xs.length := by simpa using hi
      have h1 : (x :: xs).Perm (x :: xs.get ⟨n, hn⟩ :: xs.eraseIdx n) :=
        (ih n hn).cons x
      exact h1.trans (List.Perm.swap _ _ _)

theorem mem_getPermutationsGo (fuel : Nat) :
    ∀ (l p : List ℚ), l.length ≤ fuel →
      (p ∈ getPermutationsGo fuel l ↔ p.Perm l) := by
  induction fuel with
  | zero =>
    intro l p hl
    have hnil : l = [] := List.length_eq_zero.mp (Nat.le_zero.mp hl)
    subst hnil
    simp [getPermutationsGo, List.perm_nil]
  | succ fuel ih =>
    intro l p hl
    by_cases hlen : l.length ≤ 1
    · simp only [getPermutationsGo, if_pos hlen, List.mem_singleton]
      constructor
      · rintro rfl; exact List.Perm.refl _
      · intro hperm
        cases l with
        | nil => exact List.perm_nil.mp hperm
        | cons x xs =>
          have hxs : xs = [] := by
            cases xs with
            | nil => rfl
            | cons y ys => simp at hlen
          subst hxs
          exact List.perm_singleton.mp hperm
    · simp only [getPermutationsGo, if_neg hlen, List.mem_flatMap]
      constructor
      · rintro ⟨i, hi, hp⟩
        rw [List.mem_range] at hi
        rw [List.mem_map] at hp
        obtain ⟨q, hq, rfl⟩ := hp
        have hlen2 : (l.eraseIdx i).length ≤ fuel := by
          rw [List.length_eraseIdx]
          simp only [hi, if_true]
          omega
        have hq2 : q.Perm (l.eraseIdx i) := (ih _ q hlen2).mp hq
        have hgd : l.getD i 0 = l.get ⟨i, hi⟩ := by
          rw [List.getD_eq_getElem l 0 hi]
          rfl
        rw [hgd]
        exact (hq2.cons _).trans (perm_get_cons_eraseIdx l i hi).symm
      · intro hperm
        cases hp : p with
        | nil =>
          rw [hp] at hperm
          have : l = [] := List.nil_perm.mp hperm
          rw [this] at hlen
          simp at hlen
        | cons a q =>
          rw [hp] at hperm
          have ha : a ∈ l := hperm.subset (by simp)
          obtain ⟨⟨i, hi⟩, hget⟩ := List.mem_iff_get.mp ha
          have hlen2 : (l.eraseIdx i).length ≤ fuel := by
            rw [List.length_eraseIdx]
            simp only [hi, if_true]
            omega
          refine ⟨i, by rw [List.mem_range]; exact hi, ?_⟩
          rw [List.mem_map]
          refine ⟨q, (ih _ q hlen2).mpr ?_, ?_⟩
          · have h2 := perm_get_cons_eraseIdx l i hi
            rw [hget] at h2
            exact (hperm.trans h2).cons_inv
          · rw [List.getD_eq_getElem l 0 hi, ← hget]
            rfl

theorem mem_getPermutations (numbers p : List ℚ) :
    p ∈ getPermutations numbers ↔ p.Perm numbers :=
  mem_getPermutationsGo numbers.length numbers p le_rfl

theorem mem_generateOperatorCombinations (n : Nat) :
    ∀ ops : List Oper, ops ∈ generateOperatorCombinations n ↔ ops.length = n := by
  induction n with
  | zero =>
    intro ops
    simp [generateOperatorCombinations, List.length_eq_zero]
  | succ n ih =>
    intro ops
    simp only [generateOperatorCombinations, List.mem_flatMap, List.mem_map]
    constructor
    · rintro ⟨o, ho, l2, hl2, rfl⟩
      simp [(ih l2).mp hl2]
    · intro hlen
      cases ops with
      | nil => simp at hlen
      | cons o l2 =>
        refine ⟨o, ?_, l2, (ih l2).mpr (by simpa using hlen), rfl⟩
        cases o <;> simp [getOperators]

theorem mem_allOpTriples (t : Oper × Oper × Oper) : t ∈ allOpTriples := by
  obtain ⟨a, b, c⟩ := t
  cases a <;> cases b <;> cases c <;> decide

theorem calculateFromArray_quad (n0 n1 n2 n3 : ℚ) (o0 o1 o2 : Oper) :
    calculateFromArray [n0, n1, n2, n3] [o0, o1, o2] =
      specFold n0 n1 n2 n3 o0 o1 o2 := by
  unfold calculateFromArray specFold
  have hlen : ¬ ([n0, n1, n2, n3].length ≠ [o0, o1, o2].length + 1) := by simp
  rw [if_neg hlen]
  show calcGo n0 [o0, o1, o2] [n1, n2, n3] = _
  cases h0 : opCalculate o0 n0 n1 with
  | none => simp [calcGo, h0]
  | some r1 =>
    cases h1 : opCalculate o1 r1 n2 with
    | none => simp [calcGo, h0, h1]
    | some r2 =>
      cases h2 : opCalculate o2 r2 n3 with
      | none => simp [calcGo, h0, h1, h2]
      | some r3 => simp [calcGo, h0, h1, h2]

theorem solutionStrings_mem (numbers : List ℚ) (s : String) :
    s ∈ solutionStrings numbers ↔
      ∃ p, p.Perm numbers ∧ ∃ ops, ops.length = 3 ∧
        ∃ r, calculateFromArray p ops = some r ∧ |r - 24| < 1/1000 ∧
          s = renderSolution p ops := by
  unfold solutionStrings
  rw [List.mem_flatMap]
  constructor
  · rintro ⟨p, hp, hs⟩
    rw [List.mem_filterMap] at hs
    obtain ⟨ops, hops, heq⟩ := hs
    refine ⟨p, (mem_getPermutations _ _).mp hp, ops,
      (mem_generateOperatorCombinations 3 ops).mp hops, ?_⟩
    cases hc : calculateFromArray p ops with
    | none => rw [hc] at heq; cases heq
    | some r =>
      simp only [hc] at heq
      by_cases habs : |r - 24| < 1/1000
      · rw [if_pos habs] at heq
        exact ⟨r, rfl, habs, (Option.some.inj heq).symm⟩
      · rw [if_neg habs] at heq; cases heq
  · rintro ⟨p, hperm, ops, hlen, r, hc, habs, rfl⟩
    refine ⟨p, (mem_getPermutations _ _).mpr hperm, ?_⟩
    rw [List.mem_filterMap]
    refine ⟨ops, (mem_generateOperatorCombinations 3 ops).mpr hlen, ?_⟩
    simp only [hc]
    rw [if_pos habs]

theorem specSolutionSet_mem (numbers : List ℚ) (h4 : numbers.length = 4)
    (s : String) :
    s ∈ specSolutionSet numbers ↔
      ∃ p, p.Perm numbers ∧ ∃ ops, ops.length = 3 ∧
        ∃ r, calculateFromArray p ops = some r ∧ |r - 24| < 1/1000 ∧
          s = renderSolution p ops := by
  unfold specSolutionSet
  rw [List.mem_toFinset, List.mem_flatMap]
  constructor
  · rintro ⟨p, hp, hs⟩
    rw [List.mem_filterMap] at hs
    obtain ⟨⟨a, b, c⟩, htrip, heq⟩ := hs
    have hperm := List.mem_permutations.mp hp
    have hplen : p.length = 4 := by rw [hperm.length_eq, h4]
    obtain ⟨n0, n1, n2, n3, rfl⟩ : ∃ n0 n1 n2 n3, p = [n0, n1, n2, n3] := by
      match p, hplen with
      | [n0, n1, n2, n3], _ => exact ⟨n0, n1, n2, n3, rfl⟩
    refine ⟨[n0, n1, n2, n3], hperm, [a, b, c], rfl, ?_⟩
    cases hc : specFold n0 n1 n2 n3 a b c with
    | none => simp only [hc] at heq; cases heq
    | some r =>
      simp only [hc] at heq
      by_cases habs : |r - 24| < 1/1000
      · rw [if_pos habs] at heq
        refine ⟨r, ?_, habs, ?_⟩
        · rw [calculateFromArray_quad]; exact hc
        · exact (Option.some.inj heq).symm
      · rw [if_neg habs] at heq; cases heq
  · rintro ⟨p, hperm, ops, hlen, r, hc, habs, rfl⟩
    have hplen : p.length = 4 := by rw [hperm.length_eq, h4]
    obtain ⟨n0, n1, n2, n3, rfl⟩ : ∃ n0 n1 n2 n3, p = [n0, n1, n2, n3] := by
      match p, hplen with
      | [n0, n1, n2, n3], _ => exact ⟨n0, n1, n2, n3, rfl⟩
    obtain ⟨a, b, c, rfl⟩ : ∃ a b c, ops = [a, b, c] := by
      match ops, hlen with
      | [a, b, c], _ => exact ⟨a, b, c, rfl⟩
    refine ⟨[n0, n1, n2, n3], List.mem_permutations.mpr hperm, ?_⟩
    rw [List.mem_filterMap]
    refine ⟨(a, b, c), mem_allOpTriples _, ?_⟩
    have hc2 : specFold n0 n1 n2 n3 a b c = some r := by
      rw [← calculateFromArray_quad]; exact hc
    simp only [hc2]
    rw [if_pos habs]

theorem countSolutions_eq_spec (numbers : List ℚ) (h4 : numbers.length = 4) :
    countSolutions numbers = (specSolutionSet numbers).card := by
  unfold countSolutions
  congr 1
  ext s
  rw [List.mem_toFinset, solutionStrings_mem]
  exact (specSolutionSet_mem numbers h4 s).symm

/-- C1: for every list of four numbers, countSolutions equals the number of
distinct rendered solution strings over all permutations of the numbers and
all ordered operator triples whose strict left-to-right fold lands within
0.001 of 24 (with the NaN sentinel aborting a combination), and hasSolution
holds exactly when this count is positive. -/
theorem spec_c1 (numbers : List ℚ) (h4 : numbers.length = 4) :
    countSolutions numbers = (specSolutionSet numbers).card ∧
    (hasSolution numbers = true ↔ 0 < countSolutions numbers) := by
  refine ⟨countSolutions_eq_spec numbers h4, ?_⟩
  simp [hasSolution]

/-- C1 witness: the numbers 1,2,3,4. -/
theorem spec_c1_witness :
    ([1, 2, 3, 4] : List ℚ).length = 4 ∧
    (countSolutions [1, 2, 3, 4] = (specSolutionSet [1, 2, 3, 4]).card ∧
     (hasSolution [1, 2, 3, 4] = true ↔ 0 < countSolutions [1, 2, 3, 4])) :=
  ⟨rfl, spec_c1 [1, 2, 3, 4] rfl⟩

/-! String-evaluator lemmas. -/

theorem allowed_char_parts {c : Char} (h : allowedChar c = false) :
    c.isDigit = false ∧ charTok c = none := by
  simp only [allowedChar, Bool.or_eq_false_iff, decide_eq_false_iff_not] at h
  obtain ⟨⟨⟨⟨⟨⟨hd, h1⟩, h2⟩, h3⟩, h4⟩, h5⟩, h6⟩ := h
  refine ⟨hd, ?_⟩
  simp [charTok, h1, h2, h3, h4, h5, h6]

theorem allowedChar_eq_false {x : Char} (hd : x.isDigit = false)
    (hct : charTok x = none) : allowedChar x = false := by
  simp only [charTok] at hct
  split_ifs at hct with h1 h2 h3 h4 h5 h6
  all_goals first
    | exact Option.noConfusion hct
    | simp [allowedChar, hd, h1, h2, h3, h4, h5, h6]

theorem mem_dropWhile_digits (c : Char) (l : List Char) (h : c ∈ l)
    (hc : c.isDigit = false) : c ∈ l.dropWhile Char.isDigit := by
  induction l with
  | nil => cases h
  | cons x xs ih =>
    rw [List.dropWhile_cons]
    by_cases hx : x.isDigit = true
    · rw [if_pos hx]
      rcases List.mem_cons.mp h with rfl | hmem
      · rw [hc] at hx; cases hx
      · exact ih hmem
    · rw [if_neg hx]
      exact h

theorem dropWhile_length_le_self (p : Char → Bool) (l : List Char) :
    (l.dropWhile p).length ≤ l.length := by
  induction l with
  | nil => simp
  | cons x xs ih =>
    rw [List.dropWhile_cons]
    by_cases hx : p x = true
    · rw [if_pos hx]
      exact Nat.le_succ_of_le ih
    · rw [if_neg hx]

theorem kvTokenizeGo_lex (fuel : Nat) :
    ∀ (cs : List Char) (c : Char), cs.length ≤ fuel → c ∈ cs →
      allowedChar c = false →
      ∃ c2, allowedChar c2 = false ∧
        kvTokenizeGo fuel cs = .error (.invalidChar c2) := by
  induction fuel with
  | zero =>
    intro cs c hl hc _
    have hnil : cs = [] := List.length_eq_zero.mp (Nat.le_zero.mp hl)
    subst hnil
    cases hc
  | succ fuel ih =>
    intro cs c hl hc hbad
    cases cs with
    | nil => cases hc
    | cons x xs =>
      have hlx : xs.length ≤ fuel := by
        simp only [List.length_cons] at hl
        omega
      by_cases hx : x.isDigit = true
      · have hcx : c ≠ x := by
          intro h
          subst h
          rw [(allowed_char_parts hbad).1] at hx
          cases hx
        have hcxs : c ∈ xs := by
          rcases List.mem_cons.mp hc with rfl | hm
          · exact absurd rfl hcx
          · exact hm
        have hcdrop : c ∈ xs.dropWhile Char.isDigit :=
          mem_dropWhile_digits c xs hcxs (allowed_char_parts hbad).1
        have hlen2 : (xs.dropWhile Char.isDigit).length ≤ fuel :=
          le_trans (dropWhile_length_le_self Char.isDigit xs) hlx
        obtain ⟨c2, hc2, herr⟩ := ih _ c hlen2 hcdrop hbad
        refine ⟨c2, hc2, ?_⟩
        simp only [kvTokenizeGo, if_pos hx, herr]
      · cases hct : charTok x with
        | some t =>
          have hcx : c ≠ x := by
            intro h
            subst h
            rw [(allowed_char_parts hbad).2] at hct
            cases hct
          have hcxs : c ∈ xs := by
            rcases List.mem_cons.mp hc with rfl | hm
            · exact absurd rfl hcx
            · exact hm
          obtain ⟨c2, hc2, herr⟩ := ih xs c hlx hcxs hbad
          refine ⟨c2, hc2, ?_⟩
          simp only [kvTokenizeGo, if_neg hx, hct, herr]
        | none =>
          refine ⟨x, allowedChar_eq_false (by simpa using hx) hct, ?_⟩
          simp only [kvTokenizeGo, if_neg hx, hct]

/-- C9: the string-form evaluator reports its error classes distinctly: any
string containing a character outside the digit/operator/parenthesis alphabet
(after whitespace removal) fails with the lexical 无效字符 error produced by
the tokenizer before any parsing; leftover tokens after the top-level
Expression fail with the trailing-input 表达式解析不完整 error; the concrete
input 8/0 fails with the arithmetic 除零错误 error, a constructor distinct
from every syntax-error constructor. -/
theorem spec_c9 :
    (∀ (s : String) (c : Char), c ∈ s.data → allowedChar c = false →
      jsWhitespace c = false →
      ∃ c2, allowedChar c2 = false ∧
        evaluateWithParser s = .error (.invalidChar c2)) ∧
    (∀ (s : String) (toks : List KvTok) (v : ℚ) (rest : List KvTok),
      kvTokenize (stripSpaces s) = .ok toks →
      kvParseE (3 * toks.length + 3) toks = .ok (v, rest) → rest ≠ [] →
      evaluateWithParser s = .error .trailingInput) ∧
    evaluateWithParser "8/0" = .error .divisionByZero ∧
    (KvError.divisionByZero ≠ .trailingInput ∧
     KvError.divisionByZero ≠ .missingRParen ∧
     KvError.divisionByZero ≠ .unexpectedToken ∧
     ∀ c, KvError.divisionByZero ≠ .invalidChar c) := by
  refine ⟨?_, ?_, ?_, by decide, by decide, by decide, fun c => by simp⟩
  · intro s c hmem hbad hws
    have hmem2 : c ∈ stripSpaces s := by
      unfold stripSpaces
      rw [List.mem_filter]
      refine ⟨hmem, ?_⟩
      rw [hws]
      rfl
    obtain ⟨c2, hc2, herr⟩ :=
      kvTokenizeGo_lex (stripSpaces s).length (stripSpaces s) c le_rfl hmem2 hbad
    refine ⟨c2, hc2, ?_⟩
    unfold evaluateWithParser kvTokenize
    rw [herr]
  · intro s toks v rest htok hparse hne
    unfold evaluateWithParser
    simp only [htok, hparse]
    rw [if_neg hne]
  · with_unfolding_all decide

/-- C9 witness: the lexical part at 8a0 (bad character a), the trailing part
at the input 8)2, and those applications composed with their hypotheses. -/
theorem spec_c9_witness :
    ('a' ∈ "8a0".data ∧ allowedChar 'a' = false ∧ jsWhitespace 'a' = false) ∧
    (∃ c2, allowedChar c2 = false ∧
      evaluateWithParser "8a0" = .error (.invalidChar c2)) ∧
    (kvTokenize (stripSpaces "8)2") = .ok [.num 8, .rp, .num 2] ∧
     kvParseE (3 * ([KvTok.num 8, .rp, .num 2]).length + 3)
       [.num 8, .rp, .num 2] = .ok (8, [.rp, .num 2])) ∧
    evaluateWithParser "8)2" = .error .trailingInput :=
  ⟨⟨by decide, by decide, by decide⟩,
   spec_c9.1 "8a0" 'a' (by decide) (by decide) (by decide),
   ⟨by with_unfolding_all decide, by with_unfolding_all decide⟩,
   spec_c9.2.1 "8)2" [.num 8, .rp, .num 2] 8 [.rp, .num 2]
     (by with_unfolding_all decide) (by with_unfolding_all decide) (by decide)⟩

/-- C10 (code bug): the catalogue-lookup functions of the solutions module
sort their numbers argument with the in-place Array.prototype.sort, so the
caller's array is reordered by the call: on the unsorted input 3,1,2,4 all
three functions leave the array as 1,2,3,4, contradicting the claimed absence
of observable mutation (the returned value itself depends only on the input
multiset and the catalogue). -/
theorem spec_c10 :
    (kvHasSolution [] [3, 1, 2, 4]).2 = [1, 2, 3, 4] ∧
    (kvGetSolutionCount [] [3, 1, 2, 4]).2 = [1, 2, 3, 4] ∧
    (kvGenerateHint [] [3, 1, 2, 4]).2 = [1, 2, 3, 4] ∧
    ([1, 2, 3, 4] : List ℚ) ≠ [3, 1, 2, 4] := by
  refine ⟨?_, ?_, ?_, ?_⟩ <;> with_unfolding_all decide
